import Mathlib

/- Formal model of the Minesweeper knowledge-based agent (minesweeper.py):
   the Sentence data structure, the MinesweeperAI knowledge base with its
   add_knowledge deduction entry point, and the move selectors.  Board cells
   are pairs of integers; counts are integers.  Mutation of shared Sentence
   objects in the Python code is modeled by reading list elements by index
   from the evolving list. -/

/-- A board coordinate pair, as in the Python tuples. -/
abbrev Cell := ℤ × ℤ

/-- Bounds check 0 <= i < height and 0 <= j < width from the Python code. -/
def inB (h w : ℤ) (c : Cell) : Prop :=
  0 ≤ c.1 ∧ c.1 < h ∧ 0 ≤ c.2 ∧ c.2 < w

instance (h w : ℤ) (c : Cell) : Decidable (inB h w c) := by
  unfold inB; infer_instance

/-- The 3x3 neighborhood of a cell, the cell itself excluded; this is the
    index range scanned by the two nested loops in cell_neighbors and
    nearby_mines, with no bounds restriction. -/
def ringOf (cell : Cell) : Finset Cell :=
  ((Finset.Icc (cell.1 - 1) (cell.1 + 1)) ×ˢ (Finset.Icc (cell.2 - 1) (cell.2 + 1))).erase cell

/-- Lexicographic order on cells, used only to serialize a Python set into a
    list when a loop iterates over it; the marking operations iterated this
    way commute, so the order carries no information. -/
def cellLE (a b : Cell) : Prop := a.1 < b.1 ∨ (a.1 = b.1 ∧ a.2 ≤ b.2)

instance : DecidableRel cellLE := fun a b => by unfold cellLE; infer_instance

instance : IsTrans Cell cellLE := ⟨by intro a b c hab hbc; unfold cellLE at *; omega⟩

instance : IsAntisymm Cell cellLE := ⟨by
  intro a b hab hba; cases a; cases b; simp only [cellLE] at hab hba
  simp only [Prod.mk.injEq]; omega⟩

instance : IsTotal Cell cellLE := ⟨by intro a b; unfold cellLE; omega⟩

/-- A canonical list of the elements of a multiset of cells: insertion sort,
    which is invariant under permutation of the input. -/
def sortedM (m : Multiset Cell) : List Cell :=
  Quot.liftOn m (fun l => List.insertionSort cellLE l)
    (fun l1 l2 hp =>
      have hp2 : List.Perm l1 l2 := hp
      List.eq_of_perm_of_sorted
        ((List.perm_insertionSort cellLE l1).trans
          (hp2.trans (List.perm_insertionSort cellLE l2).symm))
        (List.sorted_insertionSort cellLE l1) (List.sorted_insertionSort cellLE l2))

/-- A canonical list of the elements of a finite cell set. -/
def sortedCells (A : Finset Cell) : List Cell := sortedM A.val

/-- class Sentence: a set of board cells and a count of how many are mines. -/
structure Sentence where
  cells : Finset Cell
  count : ℤ
deriving DecidableEq

/-- Sentence.known_mines: the full cell set when len(cells) == count, else None. -/
def Sentence.known_mines (s : Sentence) : Option (Finset Cell) :=
  if (s.cells.card : ℤ) = s.count then some s.cells else none

/-- Sentence.known_safes: the full cell set when count == 0, else None. -/
def Sentence.known_safes (s : Sentence) : Option (Finset Cell) :=
  if s.count = 0 then some s.cells else none

/-- Sentence.mark_mine: rebuilds cells without the given cell, decrementing
    count once for the removed occurrence; unchanged when absent. -/
def Sentence.mark_mine (s : Sentence) (cell : Cell) : Sentence :=
  if cell ∈ s.cells then Sentence.mk (s.cells.erase cell) (s.count - 1) else s

/-- Sentence.mark_safe: rebuilds cells without the given cell, count unchanged. -/
def Sentence.mark_safe (s : Sentence) (cell : Cell) : Sentence :=
  Sentence.mk (s.cells.erase cell) s.count

/-- The state of class MinesweeperAI: board dimensions, moves_made, mines,
    safes, and the knowledge list of sentences. -/
structure AIState where
  height : ℤ
  width : ℤ
  moves_made : Finset Cell
  mines : Finset Cell
  safes : Finset Cell
  knowledge : List Sentence
deriving DecidableEq

/-- MinesweeperAI.__init__(height, width): empty sets, empty knowledge. -/
def aiInit (h w : ℤ) : AIState := AIState.mk h w ∅ ∅ ∅ []

/-- MinesweeperAI.mark_mine: add to self.mines and mark in every sentence. -/
def AIState.mark_mine (st : AIState) (cell : Cell) : AIState :=
  AIState.mk st.height st.width st.moves_made (insert cell st.mines) st.safes
    (st.knowledge.map (fun s => s.mark_mine cell))

/-- MinesweeperAI.mark_safe: add to self.safes and mark in every sentence. -/
def AIState.mark_safe (st : AIState) (cell : Cell) : AIState :=
  AIState.mk st.height st.width st.moves_made st.mines (insert cell st.safes)
    (st.knowledge.map (fun s => s.mark_safe cell))

/-- Marking a batch of cells as mines one after the other, as the for loops
    over setDiff and known_mines() do. -/
def markMinesList (st : AIState) (l : List Cell) : AIState :=
  l.foldl AIState.mark_mine st

/-- Marking a batch of cells as safe one after the other. -/
def markSafesList (st : AIState) (l : List Cell) : AIState :=
  l.foldl AIState.mark_safe st

/-- MinesweeperAI.cell_neighbors: the in-bounds ring cells not already in
    safes or mines, paired with the incoming count decremented once for every
    ring cell found in self.mines (the Python membership test there carries
    no bounds check). -/
def AIState.cell_neighbors (st : AIState) (cell : Cell) (count : ℤ) : Finset Cell × ℤ :=
  ((ringOf cell).filter (fun c => inB st.height st.width c ∧ c ∉ st.safes ∧ c ∉ st.mines),
   count - (((ringOf cell).filter (fun c => c ∈ st.mines)).card : ℤ))

/-- Reading position i of the live knowledge list, matching how the Python
    for loops see the current object stored at each index. -/
def nthS : List Sentence → ℕ → Sentence
  | [], _ => Sentence.mk ∅ 0
  | s :: _, 0 => s
  | _ :: t, i + 1 => nthS t i

/-- One iteration of the resolution loop in add_knowledge: compare the
    sentence currently at index i with the current value of the sentence
    appended last (index n-1), mark the difference safe or mine when the
    counts settle it, or stage a derived sentence. -/
def loopStep (n : ℕ) (acc : AIState × List Sentence) (i : ℕ) : AIState × List Sentence :=
  let st := acc.1
  let s := nthS st.knowledge i
  let sent := nthS st.knowledge (n - 1)
  if s = sent then acc
  else if sent.cells ⊆ s.cells then
    (if s.count = sent.count then (markSafesList st (sortedCells (s.cells \ sent.cells)), acc.2)
     else if ((s.cells \ sent.cells).card : ℤ) = s.count - sent.count then
       (markMinesList st (sortedCells (s.cells \ sent.cells)), acc.2)
     else (st, acc.2 ++ [Sentence.mk (s.cells \ sent.cells) (s.count - sent.count)]))
  else if s.cells ⊆ sent.cells then
    (if s.count = sent.count then (markSafesList st (sortedCells (sent.cells \ s.cells)), acc.2)
     else if ((sent.cells \ s.cells).card : ℤ) = sent.count - s.count then
       (markMinesList st (sortedCells (sent.cells \ s.cells)), acc.2)
     else (st, acc.2 ++ [Sentence.mk (sent.cells \ s.cells) (sent.count - s.count)]))
  else acc

/-- The deduplication pass: keep the first occurrence of each sentence value. -/
def dedupList (l : List Sentence) : List Sentence :=
  l.foldl (fun acc s => if s ∈ acc then acc else acc ++ [s]) []

/-- One iteration of the final extraction pass: the sentence currently at
    index i is dropped after marking all its cells when its known_mines()
    or known_safes() value is truthy (a nonempty set), else its index is
    kept. -/
def extractStep (acc : AIState × List ℕ) (i : ℕ) : AIState × List ℕ :=
  let st := acc.1
  let s := nthS st.knowledge i
  if (s.cells.card : ℤ) = s.count ∧ s.cells ≠ ∅ then
    (markMinesList st (sortedCells s.cells), acc.2)
  else if s.count = 0 ∧ s.cells ≠ ∅ then
    (markSafesList st (sortedCells s.cells), acc.2)
  else (st, acc.2 ++ [i])

/-- Steps 1 and 2 of add_knowledge: record the move and mark the cell safe. -/
def stageObs (st : AIState) (cell : Cell) : AIState :=
  (AIState.mk st.height st.width (insert cell st.moves_made) st.mines st.safes
    st.knowledge).mark_safe cell

/-- Step 3 of add_knowledge: append the sentence built from cell_neighbors. -/
def stageNew (st : AIState) (cell : Cell) (count : ℤ) : AIState :=
  AIState.mk st.height st.width st.moves_made st.mines st.safes
    (st.knowledge ++
      [Sentence.mk (st.cell_neighbors cell count).1 (st.cell_neighbors cell count).2])

/-- The resolution loop of add_knowledge, run over every index of the live
    knowledge list, returning the final state and the staged inferences. -/
def loopPair (st : AIState) : AIState × List Sentence :=
  (List.range st.knowledge.length).foldl (loopStep st.knowledge.length) (st, [])

/-- Steps 4 and 5 of add_knowledge: run the loop, then extend the knowledge
    list with the staged inferences. -/
def stageLoop (st : AIState) : AIState :=
  AIState.mk (loopPair st).1.height (loopPair st).1.width (loopPair st).1.moves_made
    (loopPair st).1.mines (loopPair st).1.safes
    ((loopPair st).1.knowledge ++ (loopPair st).2)

/-- The deduplication of self.knowledge. -/
def stageDedup (st : AIState) : AIState :=
  AIState.mk st.height st.width st.moves_made st.mines st.safes (dedupList st.knowledge)

/-- The extraction pass, run over every index of the live knowledge list;
    the final knowledge holds the current values of the kept indices, since
    the Python final_knowledge list aliases the mutated objects. -/
def extractPair (st : AIState) : AIState × List ℕ :=
  (List.range st.knowledge.length).foldl extractStep (st, [])

/-- The end of add_knowledge: run extraction and rebuild self.knowledge. -/
def stageExtract (st : AIState) : AIState :=
  AIState.mk (extractPair st).1.height (extractPair st).1.width
    (extractPair st).1.moves_made (extractPair st).1.mines (extractPair st).1.safes
    ((extractPair st).2.map (fun i => nthS (extractPair st).1.knowledge i))

/-- MinesweeperAI.add_knowledge(cell, count), all steps in order. -/
def AIState.add_knowledge (st : AIState) (cell : Cell) (count : ℤ) : AIState :=
  stageExtract (stageDedup (stageLoop (stageNew (stageObs st cell) cell count)))

/-- MinesweeperAI.make_safe_move: an element of safes - moves_made, or None;
    the state is read but never written. -/
def AIState.make_safe_move (st : AIState) : AIState × Option Cell :=
  (st, (sortedCells (st.safes \ st.moves_made)).head?)

/-- The full board cell set built by the two loops in make_random_move. -/
def allCells (st : AIState) : Finset Cell :=
  (Finset.Icc 0 (st.height - 1)) ×ˢ (Finset.Icc 0 (st.width - 1))

/-- MinesweeperAI.make_random_move: a cell of board - moves_made - mines
    chosen by the random index k, or None when none is left; the state is
    read but never written. -/
def AIState.make_random_move (st : AIState) (k : ℕ) : AIState × Option Cell :=
  (st,
    if 0 < (sortedCells (((allCells st) \ st.moves_made) \ st.mines)).length then
      some ((sortedCells (((allCells st) \ st.moves_made) \ st.mines)).getD
        (k % (sortedCells (((allCells st) \ st.moves_made) \ st.mines)).length) (0, 0))
    else none)

/-- A sentence is satisfied by a mine placement M when exactly count of its
    cells are mines: the meaning of a Sentence. -/
def sat (M : Cell → Bool) (s : Sentence) : Prop :=
  ((s.cells.filter (fun c => M c = true)).card : ℤ) = s.count

instance (M : Cell → Bool) (s : Sentence) : Decidable (sat M s) := by
  unfold sat; infer_instance

/-- A sentence is good for placement M on an h x w board when it is satisfied
    by M and all its cells are in bounds. -/
structure goodS (M : Cell → Bool) (h w : ℤ) (s : Sentence) : Prop where
  hsat : sat M s
  hbd : ∀ c ∈ s.cells, inB h w c

/-- The soundness invariant of a knowledge-base state for a fixed placement:
    every sentence is satisfied with in-bounds cells, every recorded mine is
    a true in-bounds mine, every recorded safe is truly not a mine. -/
structure InvKB (M : Cell → Bool) (h w : ℤ) (st : AIState) : Prop where
  hh : st.height = h
  hw : st.width = w
  hkn : ∀ s ∈ st.knowledge, goodS M h w s
  hmines : ∀ c ∈ st.mines, M c = true ∧ inB h w c
  hsafes : ∀ c ∈ st.safes, M c = false

/-- The true number of mines among the in-bounds ring cells, as computed by
    Minesweeper.nearby_mines. -/
def trueNearby (M : Cell → Bool) (h w : ℤ) (cell : Cell) : ℤ :=
  (((ringOf cell).filter (fun c => inB h w c ∧ M c = true)).card : ℤ)

/-- Knowledge-base states reachable by add_knowledge calls whose reported
    counts are consistent with a fixed true mine placement M: each observed
    cell is in bounds, not a mine, and reports its true nearby count. -/
inductive Reachable (M : Cell → Bool) (h w : ℤ) : AIState → Prop where
  | init : Reachable M h w (AIState.mk h w ∅ ∅ ∅ [])
  | step : ∀ (st : AIState) (cell : Cell) (count : ℤ), Reachable M h w st →
      inB h w cell → M cell = false → count = trueNearby M h w cell →
      Reachable M h w (st.add_knowledge cell count)

/-- The all-safe placement used by concrete runs below. -/
def M0 : Cell → Bool := fun _ => false

/-- The state after observing cell (0,0) with count 0 on a 1 x 1 board. -/
def stObs1 : AIState := (aiInit 1 1).add_knowledge (0, 0) 0

/-- A placement with a single mine at (0,0). -/
def M2 : Cell → Bool := fun c => decide (c = ((0, 0) : Cell))

/-- Example sentence: exactly 1 of (0,0),(0,1) is a mine. -/
def sA : Sentence := Sentence.mk {((0, 0) : Cell), ((0, 1) : Cell)} 1

/-- Example sentence: (0,0) is a mine. -/
def sB : Sentence := Sentence.mk {((0, 0) : Cell)} 1

/-- Example state with one recorded mine, for the cell_neighbors theorem. -/
def stC6 : AIState := AIState.mk 2 2 ∅ {((0, 0) : Cell)} ∅ []

/-- Example sentence for the mark operation theorem. -/
def sC7 : Sentence := Sentence.mk {((0, 0) : Cell), ((0, 1) : Cell)} 1

/-- Example state where safes is nonempty but already fully played. -/
def stW9a : AIState := AIState.mk 1 1 {((0, 0) : Cell)} ∅ {((0, 0) : Cell)} []

/-- Example state with one known safe unplayed cell. -/
def stW9b : AIState := AIState.mk 1 1 ∅ ∅ {((0, 0) : Cell)} []

/-- A placement on a 1 x 5 board with mines at (0,2) and (0,4). -/
def M15 : Cell → Bool := fun c => decide (c = ((0, 2) : Cell)) || decide (c = ((0, 4) : Cell))

/-- The state after the consistent observations (0,1) with count 1 and then
    (0,3) with count 2 on the 1 x 5 board of M15. -/
def run15 : AIState := ((aiInit 1 5).add_knowledge (0, 1) 1).add_knowledge (0, 3) 2

/-- Membership in the canonical list agrees with membership in the set. -/
lemma mem_sortedCells {A : Finset Cell} {c : Cell} : c ∈ sortedCells A ↔ c ∈ A := by
  rcases A with ⟨m, hm⟩
  refine Quotient.inductionOn m (fun l => ?_) hm
  intro _
  show c ∈ List.insertionSort cellLE l ↔ _
  rw [List.mem_insertionSort]
  exact (Multiset.mem_coe).symm

/-- Marking removes cells, never adds them: mark_mine. -/
lemma mark_mine_cells_subset (s : Sentence) (c : Cell) :
    (s.mark_mine c).cells ⊆ s.cells := by
  unfold Sentence.mark_mine
  split_ifs with hc
  · exact Finset.erase_subset c s.cells
  · exact Finset.Subset.refl s.cells

/-- Marking removes cells, never adds them: mark_safe. -/
lemma mark_safe_cells_subset (s : Sentence) (c : Cell) :
    (s.mark_safe c).cells ⊆ s.cells :=
  Finset.erase_subset c s.cells

/-- Marking a true mine preserves satisfaction of a sentence. -/
lemma sat_mark_mine {M : Cell → Bool} {c : Cell} {s : Sentence}
    (hMc : M c = true) (hs : sat M s) : sat M (s.mark_mine c) := by
  unfold Sentence.mark_mine
  split_ifs with hc
  · show (((s.cells.erase c).filter (fun x => M x = true)).card : ℤ) = s.count - 1
    rw [Finset.filter_erase]
    have hcf : c ∈ s.cells.filter (fun x => M x = true) := Finset.mem_filter.mpr ⟨hc, hMc⟩
    rw [Finset.card_erase_of_mem hcf]
    have hpos : 0 < (s.cells.filter (fun x => M x = true)).card :=
      Finset.card_pos.mpr ⟨c, hcf⟩
    unfold sat at hs
    omega
  · exact hs

/-- Marking a true non-mine preserves satisfaction of a sentence. -/
lemma sat_mark_safe {M : Cell → Bool} {c : Cell} {s : Sentence}
    (hMc : M c = false) (hs : sat M s) : sat M (s.mark_safe c) := by
  show (((s.cells.erase c).filter (fun x => M x = true)).card : ℤ) = s.count
  rw [Finset.filter_erase, Finset.erase_eq_of_not_mem]
  · exact hs
  · intro hmem
    have := (Finset.mem_filter.mp hmem).2
    rw [hMc] at this
    exact Bool.false_ne_true this

/-- In a set where the filter exhausts the cardinality, the predicate holds
    everywhere. -/
lemma all_of_filter_card_eq {p : Cell → Prop} [DecidablePred p] {A : Finset Cell}
    (h : (A.filter p).card = A.card) : ∀ c ∈ A, p c := by
  have he : A.filter p = A :=
    Finset.eq_of_subset_of_card_le (Finset.filter_subset p A) (le_of_eq h.symm)
  intro c hc
  exact (Finset.mem_filter.mp (he ▸ hc)).2

/-- In a set where the filter is empty, the predicate fails everywhere. -/
lemma none_of_filter_card_zero {p : Cell → Prop} [DecidablePred p] {A : Finset Cell}
    (h : (A.filter p).card = 0) : ∀ c ∈ A, ¬ p c := by
  have he : A.filter p = ∅ := Finset.card_eq_zero.mp h
  intro c hc hp
  have : c ∈ A.filter p := Finset.mem_filter.mpr ⟨hc, hp⟩
  rw [he] at this
  exact absurd this (Finset.not_mem_empty c)

/-- The mine count of a set difference of two satisfied sentences is the
    difference of the counts: the heart of subset resolution. -/
lemma sat_diff_card {M : Cell → Bool} {A B : Sentence} (hsub : B.cells ⊆ A.cells)
    (hA : sat M A) (hB : sat M B) :
    (((A.cells \ B.cells).filter (fun c => M c = true)).card : ℤ) = A.count - B.count := by
  have e : (A.cells \ B.cells).filter (fun c => M c = true)
      = A.cells.filter (fun c => M c = true) \ B.cells.filter (fun c => M c = true) := by
    ext x
    simp only [Finset.mem_filter, Finset.mem_sdiff]
    constructor
    · rintro ⟨⟨hxA, hxB⟩, hMx⟩
      exact ⟨⟨hxA, hMx⟩, fun hx => hxB hx.1⟩
    · rintro ⟨⟨hxA, hMx⟩, hx⟩
      exact ⟨⟨hxA, fun hxB => hx ⟨hxB, hMx⟩⟩, hMx⟩
  have hsub2 : B.cells.filter (fun c => M c = true) ⊆ A.cells.filter (fun c => M c = true) :=
    Finset.filter_subset_filter _ hsub
  rw [e, Finset.card_sdiff hsub2]
  have hle := Finset.card_le_card hsub2
  unfold sat at hA hB
  omega

/-- Subset resolution is sound: the derived sentence is satisfied. -/
lemma sat_diff {M : Cell → Bool} {A B : Sentence} (hsub : B.cells ⊆ A.cells)
    (hA : sat M A) (hB : sat M B) :
    sat M (Sentence.mk (A.cells \ B.cells) (A.count - B.count)) :=
  sat_diff_card hsub hA hB

/-- When the counts of two nested satisfied sentences agree, every cell of
    the difference is a non-mine. -/
lemma diff_all_safe {M : Cell → Bool} {A B : Sentence} (hsub : B.cells ⊆ A.cells)
    (hA : sat M A) (hB : sat M B) (hc : A.count = B.count) :
    ∀ c ∈ A.cells \ B.cells, M c = false := by
  have h0 : (((A.cells \ B.cells).filter (fun c => M c = true)).card : ℤ) = 0 := by
    rw [sat_diff_card hsub hA hB]; omega
  have h0n : ((A.cells \ B.cells).filter (fun c => M c = true)).card = 0 := by omega
  intro c hcmem
  have hnot := none_of_filter_card_zero h0n c hcmem
  rcases Bool.eq_false_or_eq_true (M c) with hh | hh
  · exact absurd hh hnot
  · exact hh

/-- When the difference of two nested satisfied sentences has exactly as many
    cells as the count difference, every cell of the difference is a mine. -/
lemma diff_all_mines {M : Cell → Bool} {A B : Sentence} (hsub : B.cells ⊆ A.cells)
    (hA : sat M A) (hB : sat M B)
    (hc : ((A.cells \ B.cells).card : ℤ) = A.count - B.count) :
    ∀ c ∈ A.cells \ B.cells, M c = true := by
  have h1 : (((A.cells \ B.cells).filter (fun c => M c = true)).card : ℤ)
      = ((A.cells \ B.cells).card : ℤ) := by
    rw [sat_diff_card hsub hA hB]; omega
  exact all_of_filter_card_eq (by omega)

/-- A satisfied sentence whose count equals its size consists of mines. -/
lemma all_mines_of_sat {M : Cell → Bool} {s : Sentence} (hs : sat M s)
    (hc : (s.cells.card : ℤ) = s.count) : ∀ c ∈ s.cells, M c = true := by
  unfold sat at hs
  exact all_of_filter_card_eq (by omega)

/-- A satisfied sentence with count zero consists of non-mines. -/
lemma all_safes_of_sat {M : Cell → Bool} {s : Sentence} (hs : sat M s)
    (hc : s.count = 0) : ∀ c ∈ s.cells, M c = false := by
  unfold sat at hs
  have h0 : (s.cells.filter (fun c => M c = true)).card = 0 := by omega
  intro c hcmem
  have hnot := none_of_filter_card_zero h0 c hcmem
  rcases Bool.eq_false_or_eq_true (M c) with hh | hh
  · exact absurd hh hnot
  · exact hh

/-- The default sentence read off the end of a list is good. -/
lemma goodS_default (M : Cell → Bool) (h w : ℤ) : goodS M h w (Sentence.mk ∅ 0) := by
  constructor
  · show ((((∅ : Finset Cell)).filter (fun c => M c = true)).card : ℤ) = 0
    simp
  · intro c hc
    exact absurd hc (Finset.not_mem_empty c)

/-- Reading any index of a list of good sentences yields a good sentence. -/
lemma goodS_nthS (M : Cell → Bool) (h w : ℤ) :
    ∀ (l : List Sentence) (i : ℕ), (∀ s ∈ l, goodS M h w s) → goodS M h w (nthS l i)
  | [], _, _ => goodS_default M h w
  | s :: t, 0, hl => hl s (List.mem_cons_self s t)
  | s :: t, i + 1, hl => goodS_nthS M h w t i (fun x hx => hl x (List.mem_cons_of_mem s hx))

/-- A fold preserves any property preserved by each step. -/
lemma foldl_preserve {α β : Type} (P : α → Prop) (f : α → β → α)
    (hstep : ∀ x b, P x → P (f x b)) : ∀ (l : List β) (a : α), P a → P (l.foldl f a)
  | [], _, ha => ha
  | b :: t, a, ha => foldl_preserve P f hstep t (f a b) (hstep a b ha)

/-- The knowledge-base mark_mine preserves the invariant when the marked
    cell is a true in-bounds mine. -/
lemma InvKB_mark_mine {M : Cell → Bool} {h w : ℤ} {st : AIState} {c : Cell}
    (hI : InvKB M h w st) (hMc : M c = true) (hbc : inB h w c) :
    InvKB M h w (st.mark_mine c) := by
  refine ⟨hI.hh, hI.hw, ?_, ?_, hI.hsafes⟩
  · intro s hs
    have hs2 : s ∈ st.knowledge.map (fun t => t.mark_mine c) := hs
    rw [List.mem_map] at hs2
    obtain ⟨t, ht, rfl⟩ := hs2
    exact ⟨sat_mark_mine hMc (hI.hkn t ht).hsat,
      fun x hx => (hI.hkn t ht).hbd x (mark_mine_cells_subset t c hx)⟩
  · intro x hx
    have hx2 : x ∈ insert c st.mines := hx
    rcases Finset.mem_insert.mp hx2 with rfl | hx3
    · exact ⟨hMc, hbc⟩
    · exact hI.hmines x hx3

/-- The knowledge-base mark_safe preserves the invariant when the marked
    cell is truly not a mine. -/
lemma InvKB_mark_safe {M : Cell → Bool} {h w : ℤ} {st : AIState} {c : Cell}
    (hI : InvKB M h w st) (hMc : M c = false) : InvKB M h w (st.mark_safe c) := by
  refine ⟨hI.hh, hI.hw, ?_, hI.hmines, ?_⟩
  · intro s hs
    have hs2 : s ∈ st.knowledge.map (fun t => t.mark_safe c) := hs
    rw [List.mem_map] at hs2
    obtain ⟨t, ht, rfl⟩ := hs2
    exact ⟨sat_mark_safe hMc (hI.hkn t ht).hsat,
      fun x hx => (hI.hkn t ht).hbd x (mark_safe_cells_subset t c hx)⟩
  · intro x hx
    have hx2 : x ∈ insert c st.safes := hx
    rcases Finset.mem_insert.mp hx2 with rfl | hx3
    · exact hMc
    · exact hI.hsafes x hx3

/-- Batch mine marking preserves the invariant. -/
lemma InvKB_markMinesList (M : Cell → Bool) (h w : ℤ) :
    ∀ (l : List Cell) (st : AIState), InvKB M h w st →
      (∀ c ∈ l, M c = true ∧ inB h w c) → InvKB M h w (markMinesList st l)
  | [], _, hI, _ => hI
  | c :: t, st, hI, hl =>
      InvKB_markMinesList M h w t (st.mark_mine c)
        (InvKB_mark_mine hI (hl c (List.mem_cons_self c t)).1 (hl c (List.mem_cons_self c t)).2)
        (fun x hx => hl x (List.mem_cons_of_mem c hx))

/-- Batch safe marking preserves the invariant. -/
lemma InvKB_markSafesList (M : Cell → Bool) (h w : ℤ) :
    ∀ (l : List Cell) (st : AIState), InvKB M h w st →
      (∀ c ∈ l, M c = false) → InvKB M h w (markSafesList st l)
  | [], _, hI, _ => hI
  | c :: t, st, hI, hl =>
      InvKB_markSafesList M h w t (st.mark_safe c)
        (InvKB_mark_safe hI (hl c (List.mem_cons_self c t)))
        (fun x hx => hl x (List.mem_cons_of_mem c hx))

/-- One resolution-loop iteration preserves the invariant and the goodness
    of all staged inferences. -/
lemma loopStep_preserve (M : Cell → Bool) (h w : ℤ) (n : ℕ)
    (acc : AIState × List Sentence) (i : ℕ)
    (hI : InvKB M h w acc.1) (hinf : ∀ s ∈ acc.2, goodS M h w s) :
    InvKB M h w (loopStep n acc i).1 ∧ ∀ s ∈ (loopStep n acc i).2, goodS M h w s := by
  have hs := goodS_nthS M h w acc.1.knowledge i hI.hkn
  have hsent := goodS_nthS M h w acc.1.knowledge (n - 1) hI.hkn
  simp only [loopStep]
  split_ifs with h1 h2 h3 h4 h5 h6 h7
  · exact ⟨hI, hinf⟩
  · refine ⟨InvKB_markSafesList M h w _ _ hI ?_, hinf⟩
    intro c hc
    rw [mem_sortedCells] at hc
    exact diff_all_safe h2 hs.hsat hsent.hsat h3 c hc
  · refine ⟨InvKB_markMinesList M h w _ _ hI ?_, hinf⟩
    intro c hc
    rw [mem_sortedCells] at hc
    exact ⟨diff_all_mines h2 hs.hsat hsent.hsat h4 c hc,
      hs.hbd c (Finset.mem_sdiff.mp hc).1⟩
  · refine ⟨hI, ?_⟩
    intro s2 hs2
    rcases List.mem_append.mp hs2 with hh2 | hh2
    · exact hinf s2 hh2
    · rcases List.mem_singleton.mp hh2 with rfl
      exact ⟨sat_diff h2 hs.hsat hsent.hsat,
        fun x hx => hs.hbd x (Finset.mem_sdiff.mp hx).1⟩
  · refine ⟨InvKB_markSafesList M h w _ _ hI ?_, hinf⟩
    intro c hc
    rw [mem_sortedCells] at hc
    exact diff_all_safe h5 hsent.hsat hs.hsat h6.symm c hc
  · refine ⟨InvKB_markMinesList M h w _ _ hI ?_, hinf⟩
    intro c hc
    rw [mem_sortedCells] at hc
    exact ⟨diff_all_mines h5 hsent.hsat hs.hsat h7 c hc,
      hsent.hbd c (Finset.mem_sdiff.mp hc).1⟩
  · refine ⟨hI, ?_⟩
    intro s2 hs2
    rcases List.mem_append.mp hs2 with hh2 | hh2
    · exact hinf s2 hh2
    · rcases List.mem_singleton.mp hh2 with rfl
      exact ⟨sat_diff h5 hsent.hsat hs.hsat,
        fun x hx => hsent.hbd x (Finset.mem_sdiff.mp hx).1⟩
  · exact ⟨hI, hinf⟩

/-- The whole resolution loop preserves the invariant and stages only good
    inferences. -/
lemma InvKB_loopPair (M : Cell → Bool) (h w : ℤ) (st : AIState) (hI : InvKB M h w st) :
    InvKB M h w (loopPair st).1 ∧ ∀ s ∈ (loopPair st).2, goodS M h w s := by
  unfold loopPair
  refine foldl_preserve (fun acc => InvKB M h w acc.1 ∧ ∀ s ∈ acc.2, goodS M h w s)
    (loopStep st.knowledge.length) ?_ (List.range st.knowledge.length) (st, []) ?_
  · intro x b hx
    exact loopStep_preserve M h w st.knowledge.length x b hx.1 hx.2
  · exact ⟨hI, fun s hs => absurd hs (List.not_mem_nil s)⟩

/-- Appending the staged inferences after the loop preserves the invariant. -/
lemma InvKB_stageLoop (M : Cell → Bool) (h w : ℤ) {st : AIState}
    (hI : InvKB M h w st) : InvKB M h w (stageLoop st) := by
  obtain ⟨h1, h2⟩ := InvKB_loopPair M h w st hI
  refine ⟨h1.hh, h1.hw, ?_, h1.hmines, h1.hsafes⟩
  intro s hs
  have hs2 : s ∈ (loopPair st).1.knowledge ++ (loopPair st).2 := hs
  rcases List.mem_append.mp hs2 with hh2 | hh2
  · exact h1.hkn s hh2
  · exact h2 s hh2

/-- Every element of the deduplicated list is an element of the input. -/
lemma mem_dedup_aux : ∀ (l acc : List Sentence) (s : Sentence),
    s ∈ l.foldl (fun acc s => if s ∈ acc then acc else acc ++ [s]) acc → s ∈ acc ∨ s ∈ l
  | [], _, _, hs => Or.inl hs
  | b :: t, acc, s, hs => by
      rcases mem_dedup_aux t (if b ∈ acc then acc else acc ++ [b]) s hs with hh | hh
      · split_ifs at hh with hb
        · exact Or.inl hh
        · rcases List.mem_append.mp hh with h3 | h3
          · exact Or.inl h3
          · rcases List.mem_singleton.mp h3 with rfl
            exact Or.inr (List.mem_cons_self s t)
      · exact Or.inr (List.mem_cons_of_mem b hh)

/-- Deduplication only removes sentences. -/
lemma mem_dedupList {l : List Sentence} {s : Sentence} (hs : s ∈ dedupList l) : s ∈ l := by
  rcases mem_dedup_aux l [] s hs with hh | hh
  · exact absurd hh (List.not_mem_nil s)
  · exact hh

/-- Deduplication preserves the invariant. -/
lemma InvKB_stageDedup (M : Cell → Bool) (h w : ℤ) {st : AIState}
    (hI : InvKB M h w st) : InvKB M h w (stageDedup st) := by
  refine ⟨hI.hh, hI.hw, ?_, hI.hmines, hI.hsafes⟩
  intro s hs
  exact hI.hkn s (mem_dedupList hs)

/-- One extraction iteration preserves the invariant. -/
lemma extractStep_preserve (M : Cell → Bool) (h w : ℤ) (acc : AIState × List ℕ) (i : ℕ)
    (hI : InvKB M h w acc.1) : InvKB M h w (extractStep acc i).1 := by
  have hs := goodS_nthS M h w acc.1.knowledge i hI.hkn
  simp only [extractStep]
  split_ifs with h1 h2
  · refine InvKB_markMinesList M h w _ _ hI ?_
    intro c hc
    rw [mem_sortedCells] at hc
    exact ⟨all_mines_of_sat hs.hsat h1.1 c hc, hs.hbd c hc⟩
  · refine InvKB_markSafesList M h w _ _ hI ?_
    intro c hc
    rw [mem_sortedCells] at hc
    exact all_safes_of_sat hs.hsat h2.1 c hc
  · exact hI

/-- The extraction pass preserves the invariant. -/
lemma InvKB_stageExtract (M : Cell → Bool) (h w : ℤ) {st : AIState}
    (hI : InvKB M h w st) : InvKB M h w (stageExtract st) := by
  have hq : InvKB M h w (extractPair st).1 := by
    unfold extractPair
    exact foldl_preserve (fun acc => InvKB M h w acc.1) extractStep
      (fun x b hx => extractStep_preserve M h w x b hx) (List.range st.knowledge.length)
      (st, []) hI
  refine ⟨hq.hh, hq.hw, ?_, hq.hmines, hq.hsafes⟩
  intro s hs
  have hs2 : s ∈ (extractPair st).2.map (fun i => nthS (extractPair st).1.knowledge i) := hs
  rw [List.mem_map] at hs2
  obtain ⟨i, _, rfl⟩ := hs2
  exact goodS_nthS M h w _ i hq.hkn

/-- The sentence built by cell_neighbors from a consistent observation is
    satisfied by the placement and has in-bounds cells. -/
lemma goodS_new (M : Cell → Bool) (h w : ℤ) (st : AIState) (cell : Cell) (count : ℤ)
    (hI : InvKB M h w st) (hc : count = trueNearby M h w cell) :
    goodS M h w
      (Sentence.mk (st.cell_neighbors cell count).1 (st.cell_neighbors cell count).2) := by
  obtain ⟨hh, hw, hkn, hmines, hsafes⟩ := hI
  subst hh
  subst hw
  constructor
  · show ((((ringOf cell).filter
        (fun c => inB st.height st.width c ∧ c ∉ st.safes ∧ c ∉ st.mines)).filter
          (fun c => M c = true)).card : ℤ)
      = count - (((ringOf cell).filter (fun c => c ∈ st.mines)).card : ℤ)
    set R := ringOf cell with hR
    set A := R.filter (fun c => inB st.height st.width c ∧ M c = true) with hA
    have e1 : (R.filter (fun c => inB st.height st.width c ∧ c ∉ st.safes ∧ c ∉ st.mines)).filter
        (fun c => M c = true) = A.filter (fun c => c ∉ st.mines) := by
      ext x
      simp only [hA, Finset.mem_filter]
      constructor
      · rintro ⟨⟨hxR, hin, hns, hnm⟩, hMx⟩
        exact ⟨⟨hxR, hin, hMx⟩, hnm⟩
      · rintro ⟨⟨hxR, hin, hMx⟩, hnm⟩
        refine ⟨⟨hxR, hin, ?_, hnm⟩, hMx⟩
        intro hxs
        rw [hsafes x hxs] at hMx
        exact Bool.false_ne_true hMx
    have e2 : A.filter (fun c => c ∈ st.mines) = R.filter (fun c => c ∈ st.mines) := by
      ext x
      simp only [hA, Finset.mem_filter]
      constructor
      · rintro ⟨⟨hxR, _, _⟩, hm⟩
        exact ⟨hxR, hm⟩
      · rintro ⟨hxR, hm⟩
        exact ⟨⟨hxR, (hmines x hm).2, (hmines x hm).1⟩, hm⟩
    have e3 : (A.filter (fun c => c ∈ st.mines)).card
        + (A.filter (fun c => c ∉ st.mines)).card = A.card :=
      Finset.filter_card_add_filter_neg_card_eq_card (fun c => c ∈ st.mines)
    have hcount : count = (A.card : ℤ) := hc
    rw [e1, ← e2]
    omega
  · intro c hcmem
    have hcm : c ∈ (ringOf cell).filter
        (fun c => inB st.height st.width c ∧ c ∉ st.safes ∧ c ∉ st.mines) := hcmem
    exact (Finset.mem_filter.mp hcm).2.1

/-- Steps 1 and 2 preserve the invariant: the observed cell is truly safe. -/
lemma InvKB_stageObs (M : Cell → Bool) (h w : ℤ) {st : AIState} (cell : Cell)
    (hI : InvKB M h w st) (hMc : M cell = false) : InvKB M h w (stageObs st cell) := by
  have hI2 : InvKB M h w (AIState.mk st.height st.width (insert cell st.moves_made)
      st.mines st.safes st.knowledge) := ⟨hI.hh, hI.hw, hI.hkn, hI.hmines, hI.hsafes⟩
  exact InvKB_mark_safe hI2 hMc

/-- Appending the new observation sentence preserves the invariant. -/
lemma InvKB_stageNew (M : Cell → Bool) (h w : ℤ) {st : AIState} (cell : Cell) (count : ℤ)
    (hI : InvKB M h w st) (hc : count = trueNearby M h w cell) :
    InvKB M h w (stageNew st cell count) := by
  refine ⟨hI.hh, hI.hw, ?_, hI.hmines, hI.hsafes⟩
  intro s hs
  have hs2 : s ∈ st.knowledge ++
      [Sentence.mk (st.cell_neighbors cell count).1 (st.cell_neighbors cell count).2] := hs
  rcases List.mem_append.mp hs2 with hh2 | hh2
  · exact hI.hkn s hh2
  · rcases List.mem_singleton.mp hh2 with rfl
    exact goodS_new M h w st cell count hI hc

/-- A full add_knowledge call on a consistent observation preserves the
    invariant. -/
lemma InvKB_add_knowledge {M : Cell → Bool} {h w : ℤ} {st : AIState} (cell : Cell)
    (count : ℤ) (hI : InvKB M h w st) (hMc : M cell = false)
    (hc : count = trueNearby M h w cell) : InvKB M h w (st.add_knowledge cell count) :=
  InvKB_stageExtract M h w (InvKB_stageDedup M h w (InvKB_stageLoop M h w
    (InvKB_stageNew M h w cell count (InvKB_stageObs M h w cell hI hMc) hc)))

/-- Every reachable consistent knowledge-base state satisfies the soundness
    invariant. -/
lemma InvKB_of_reachable {M : Cell → Bool} {h w : ℤ} {st : AIState}
    (hr : Reachable M h w st) : InvKB M h w st := by
  induction hr with
  | init =>
      refine ⟨rfl, rfl, ?_, ?_, ?_⟩
      · intro s hs
        exact absurd hs (List.not_mem_nil s)
      · intro c hcm
        exact absurd hcm (Finset.not_mem_empty c)
      · intro c hcm
        exact absurd hcm (Finset.not_mem_empty c)
  | step st cell count hst hb hMc hc ih =>
      exact InvKB_add_knowledge cell count ih hMc hc

/-- Batch mine marking never touches moves_made and never shrinks safes. -/
lemma markMinesList_frame : ∀ (l : List Cell) (st : AIState),
    (markMinesList st l).moves_made = st.moves_made ∧ st.safes ⊆ (markMinesList st l).safes
  | [], _ => ⟨rfl, Finset.Subset.refl _⟩
  | c :: t, st => by
      obtain ⟨h1, h2⟩ := markMinesList_frame t (st.mark_mine c)
      exact ⟨h1, h2⟩

/-- Batch safe marking never touches moves_made and never shrinks safes. -/
lemma markSafesList_frame : ∀ (l : List Cell) (st : AIState),
    (markSafesList st l).moves_made = st.moves_made ∧ st.safes ⊆ (markSafesList st l).safes
  | [], _ => ⟨rfl, Finset.Subset.refl _⟩
  | c :: t, st => by
      obtain ⟨h1, h2⟩ := markSafesList_frame t (st.mark_safe c)
      exact ⟨h1, Finset.Subset.trans (Finset.subset_insert c st.safes) h2⟩

/-- One resolution-loop iteration never touches moves_made and never shrinks
    safes. -/
lemma loopStep_frame (n : ℕ) (acc : AIState × List Sentence) (i : ℕ) :
    (loopStep n acc i).1.moves_made = acc.1.moves_made ∧
      acc.1.safes ⊆ (loopStep n acc i).1.safes := by
  simp only [loopStep]
  split_ifs with h1 h2 h3 h4 h5 h6 h7
  all_goals first
    | exact ⟨rfl, Finset.Subset.refl _⟩
    | exact markSafesList_frame _ _
    | exact markMinesList_frame _ _

/-- The resolution loop never touches moves_made and never shrinks safes. -/
lemma loopPair_frame (st : AIState) :
    (loopPair st).1.moves_made = st.moves_made ∧ st.safes ⊆ (loopPair st).1.safes := by
  unfold loopPair
  refine foldl_preserve
    (fun acc => acc.1.moves_made = st.moves_made ∧ st.safes ⊆ acc.1.safes)
    (loopStep st.knowledge.length) ?_ (List.range st.knowledge.length) (st, [])
    ⟨rfl, Finset.Subset.refl _⟩
  intro x b hx
  obtain ⟨f1, f2⟩ := loopStep_frame st.knowledge.length x b
  exact ⟨f1.trans hx.1, Finset.Subset.trans hx.2 f2⟩

/-- One extraction iteration never touches moves_made and never shrinks
    safes. -/
lemma extractStep_frame (acc : AIState × List ℕ) (i : ℕ) :
    (extractStep acc i).1.moves_made = acc.1.moves_made ∧
      acc.1.safes ⊆ (extractStep acc i).1.safes := by
  simp only [extractStep]
  split_ifs with h1 h2
  all_goals first
    | exact ⟨rfl, Finset.Subset.refl _⟩
    | exact markSafesList_frame _ _
    | exact markMinesList_frame _ _

/-- The extraction pass never touches moves_made and never shrinks safes. -/
lemma extractPair_frame (st : AIState) :
    (extractPair st).1.moves_made = st.moves_made ∧ st.safes ⊆ (extractPair st).1.safes := by
  unfold extractPair
  refine foldl_preserve
    (fun acc => acc.1.moves_made = st.moves_made ∧ st.safes ⊆ acc.1.safes)
    extractStep ?_ (List.range st.knowledge.length) (st, [])
    ⟨rfl, Finset.Subset.refl _⟩
  intro x b hx
  obtain ⟨f1, f2⟩ := extractStep_frame x b
  exact ⟨f1.trans hx.1, Finset.Subset.trans hx.2 f2⟩

/-- add_knowledge records the observed cell as a move and keeps everything
    previously known safe, with the observed cell marked safe. -/
lemma add_knowledge_frame (st : AIState) (cell : Cell) (count : ℤ) :
    (st.add_knowledge cell count).moves_made = insert cell st.moves_made ∧
      insert cell st.safes ⊆ (st.add_knowledge cell count).safes := by
  obtain ⟨l1, l2⟩ := loopPair_frame (stageNew (stageObs st cell) cell count)
  obtain ⟨e1, e2⟩ := extractPair_frame (stageDedup (stageLoop (stageNew (stageObs st cell)
    cell count)))
  exact ⟨e1.trans l1, Finset.Subset.trans l2 e2⟩

/-- C1: the claim says every sentence left in the knowledge list after
    add_knowledge is non-trivial (0 < count < number of cells) and that an
    emptied sentence is dropped.  The code retains trivial sentences: after
    the consistent observation of (0,0) with count 0 on a 1 x 1 board the
    empty sentence (no cells, count 0) stays in the list, and after two
    consistent observations on a 1 x 5 board with mines at (0,2) and (0,4)
    the retained sentence has cells {(0,0)} and count 0, an all-safe trivial
    sentence kept because it became trivial only after its extraction check. -/
theorem c1_trivial_sentences_retained :
    Reachable M0 1 1 stObs1 ∧ stObs1.knowledge = [Sentence.mk ∅ 0] ∧
      Reachable M15 1 5 run15 ∧ run15.knowledge = [Sentence.mk {((0, 0) : Cell)} 0] := by
  refine ⟨?_, by decide, ?_, by decide⟩
  · exact Reachable.step (aiInit 1 1) (0, 0) 0 Reachable.init (by decide) rfl (by decide)
  · exact Reachable.step ((aiInit 1 5).add_knowledge (0, 1) 1) (0, 3) 2
      (Reachable.step (aiInit 1 5) (0, 1) 1 Reachable.init (by decide) (by decide) (by decide))
      (by decide) (by decide) (by decide)

/-- C2: subset-resolution soundness: for sentences A and B with the cells of
    B a strict subset of the cells of A, every placement satisfying both
    satisfies the derived sentence (cells of A minus cells of B, count of A
    minus count of B), exactly as add_knowledge derives it. -/
theorem c2_subset_resolution_sound (M : Cell → Bool) (A B : Sentence)
    (hsub : B.cells ⊂ A.cells) (hA : sat M A) (hB : sat M B) :
    sat M (Sentence.mk (A.cells \ B.cells) (A.count - B.count)) :=
  sat_diff hsub.subset hA hB

/-- Witness for c2 at the placement with one mine at (0,0), with A over two
    cells and count 1 and B the singleton (0,0) with count 1. -/
theorem c2_subset_resolution_sound_witness :
    sat M2 (Sentence.mk (sA.cells \ sB.cells) (sA.count - sB.count)) :=
  c2_subset_resolution_sound M2 sA sB (by decide) (by decide) (by decide)

/-- C3: in every knowledge-base state reachable by add_knowledge calls whose
    counts are consistent with a fixed placement, every sentence satisfies
    0 <= count <= number of cells. -/
theorem c3_count_within_bounds (M : Cell → Bool) (h w : ℤ) (st : AIState)
    (hr : Reachable M h w st) :
    ∀ s ∈ st.knowledge, 0 ≤ s.count ∧ s.count ≤ (s.cells.card : ℤ) := by
  intro s hs
  have hsat := ((InvKB_of_reachable hr).hkn s hs).hsat
  unfold sat at hsat
  have hle := Finset.card_filter_le s.cells (fun c => M c = true)
  omega

/-- Witness for c3 on the sentence retained after one observation on the
    1 x 1 board. -/
theorem c3_count_within_bounds_witness :
    0 ≤ (Sentence.mk (∅ : Finset Cell) 0).count ∧
      (Sentence.mk (∅ : Finset Cell) 0).count
        ≤ (((Sentence.mk (∅ : Finset Cell) 0).cells.card : ℕ) : ℤ) :=
  c3_count_within_bounds M0 1 1 stObs1
    (Reachable.step (aiInit 1 1) (0, 0) 0 Reachable.init (by decide) rfl (by decide))
    (Sentence.mk ∅ 0) (by decide)

/-- C4: in every reachable consistent knowledge-base state the mines and
    safes sets are disjoint. -/
theorem c4_mines_safes_disjoint (M : Cell → Bool) (h w : ℤ) (st : AIState)
    (hr : Reachable M h w st) : st.mines ∩ st.safes = ∅ := by
  have hI := InvKB_of_reachable hr
  ext c
  simp only [Finset.mem_inter, Finset.not_mem_empty, iff_false, not_and]
  intro hm hs
  have h1 := (hI.hmines c hm).1
  have h2 := hI.hsafes c hs
  rw [h1] at h2
  exact Bool.noConfusion h2

/-- Witness for c4 on the state after one observation on the 1 x 1 board. -/
theorem c4_mines_safes_disjoint_witness : stObs1.mines ∩ stObs1.safes = ∅ :=
  c4_mines_safes_disjoint M0 1 1 stObs1
    (Reachable.step (aiInit 1 1) (0, 0) 0 Reachable.init (by decide) rfl (by decide))

/-- C5: known_mines returns the full cell set exactly when count equals the
    number of cells, known_safes exactly when count is zero, and both return
    a result only for the empty sentence with count zero. -/
theorem c5_known_queries (s : Sentence) :
    (s.known_mines = some s.cells ↔ (s.cells.card : ℤ) = s.count) ∧
    (s.known_safes = some s.cells ↔ s.count = 0) ∧
    (s.known_mines.isSome → s.known_safes.isSome → s.cells = ∅ ∧ s.count = 0) := by
  refine ⟨?_, ?_, ?_⟩
  · by_cases hc : (s.cells.card : ℤ) = s.count
    · simp [Sentence.known_mines, hc]
    · simp [Sentence.known_mines, hc]
  · by_cases hc : s.count = 0
    · simp [Sentence.known_safes, hc]
    · simp [Sentence.known_safes, hc]
  · intro h1 h2
    rw [Sentence.known_mines] at h1
    rw [Sentence.known_safes] at h2
    split_ifs at h1 with hc1
    · split_ifs at h2 with hc2
      · have hz : s.cells.card = 0 := by omega
        exact ⟨Finset.card_eq_zero.mp hz, hc2⟩
      · exact absurd h2 (by simp)
    · exact absurd h1 (by simp)

/-- Witness for c5 on the empty sentence with count zero, where both queries
    return a result. -/
theorem c5_known_queries_witness :
    (Sentence.mk (∅ : Finset Cell) 0).cells = ∅ ∧ (Sentence.mk (∅ : Finset Cell) 0).count = 0 :=
  (c5_known_queries (Sentence.mk ∅ 0)).2.2 (by decide) (by decide)

/-- C6: the sentence built by add_knowledge via cell_neighbors has exactly
    the in-bounds 3x3 neighbors of the cell (itself excluded) outside safes
    and mines, and the incoming count decremented once per in-bounds neighbor
    already in mines and by nothing else; the hypothesis that recorded mines
    are in bounds holds in every reachable state. -/
theorem c6_new_sentence_shape (st : AIState) (cell : Cell) (count : ℤ)
    (hm : ∀ c ∈ st.mines, inB st.height st.width c) :
    (∀ c : Cell, c ∈ (st.cell_neighbors cell count).1 ↔
      (c ≠ cell ∧ cell.1 - 1 ≤ c.1 ∧ c.1 ≤ cell.1 + 1 ∧ cell.2 - 1 ≤ c.2 ∧ c.2 ≤ cell.2 + 1 ∧
        inB st.height st.width c ∧ c ∉ st.safes ∧ c ∉ st.mines)) ∧
    (st.cell_neighbors cell count).2
      = count - (((ringOf cell).filter
          (fun c => inB st.height st.width c ∧ c ∈ st.mines)).card : ℤ) := by
  constructor
  · intro c
    simp only [AIState.cell_neighbors, ringOf, Finset.mem_filter, Finset.mem_erase,
      Finset.mem_product, Finset.mem_Icc]
    tauto
  · show count - (((ringOf cell).filter (fun c => c ∈ st.mines)).card : ℤ) = _
    have he : (ringOf cell).filter (fun c => c ∈ st.mines)
        = (ringOf cell).filter (fun c => inB st.height st.width c ∧ c ∈ st.mines) := by
      ext x
      simp only [Finset.mem_filter]
      constructor
      · rintro ⟨hxR, hxm⟩
        exact ⟨hxR, hm x hxm, hxm⟩
      · rintro ⟨hxR, _, hxm⟩
        exact ⟨hxR, hxm⟩
    rw [he]

/-- Witness for c6: on a 2 x 2 board with a recorded mine at (0,0), the
    count built for the observation of (1,1) with incoming count 3 is 3
    minus the one in-bounds neighboring recorded mine. -/
theorem c6_new_sentence_shape_witness :
    (stC6.cell_neighbors (1, 1) 3).2
      = 3 - (((ringOf (1, 1)).filter
          (fun c => inB stC6.height stC6.width c ∧ c ∈ stC6.mines)).card : ℤ) :=
  (c6_new_sentence_shape stC6 (1, 1) 3 (by decide)).2

/-- C7: mark_mine removes the cell and decrements the count exactly when
    the cell is present and is a no-op otherwise; mark_safe removes the cell
    leaving the count unchanged and is a no-op when absent; neither ever
    increases the cell count or the mine count. -/
theorem c7_mark_operations (s : Sentence) (c : Cell) :
    (c ∈ s.cells → (s.mark_mine c).cells = s.cells.erase c ∧
      (s.mark_mine c).count = s.count - 1 ∧ (s.mark_mine c).cells.card + 1 = s.cells.card) ∧
    (c ∉ s.cells → s.mark_mine c = s) ∧
    ((s.mark_safe c).cells = s.cells.erase c ∧ (s.mark_safe c).count = s.count) ∧
    (c ∉ s.cells → s.mark_safe c = s) ∧
    (s.mark_mine c).cells.card ≤ s.cells.card ∧ (s.mark_mine c).count ≤ s.count ∧
    (s.mark_safe c).cells.card ≤ s.cells.card ∧ (s.mark_safe c).count ≤ s.count := by
  refine ⟨?_, ?_, ⟨rfl, rfl⟩, ?_, ?_, ?_, ?_, le_refl _⟩
  · intro hc
    rw [Sentence.mark_mine, if_pos hc]
    refine ⟨rfl, rfl, ?_⟩
    show (s.cells.erase c).card + 1 = s.cells.card
    rw [Finset.card_erase_of_mem hc]
    have hpos := Finset.card_pos.mpr ⟨c, hc⟩
    omega
  · intro hc
    rw [Sentence.mark_mine, if_neg hc]
  · intro hc
    show Sentence.mk (s.cells.erase c) s.count = s
    rw [Finset.erase_eq_of_not_mem hc]
  · unfold Sentence.mark_mine
    split_ifs with hc
    · show (s.cells.erase c).card ≤ s.cells.card
      exact Finset.card_le_card (Finset.erase_subset c s.cells)
    · exact le_refl _
  · unfold Sentence.mark_mine
    split_ifs with hc
    · show s.count - 1 ≤ s.count
      omega
    · exact le_refl _
  · show (s.cells.erase c).card ≤ s.cells.card
    exact Finset.card_le_card (Finset.erase_subset c s.cells)

/-- Witness for c7 on a two-cell sentence marked at a contained cell. -/
theorem c7_mark_operations_witness :
    (sC7.mark_mine (0, 0)).cells = sC7.cells.erase (0, 0) ∧
      (sC7.mark_mine (0, 0)).count = sC7.count - 1 ∧
      (sC7.mark_mine (0, 0)).cells.card + 1 = sC7.cells.card :=
  (c7_mark_operations sC7 (0, 0)).1 (by decide)

/-- C9: make_safe_move returns no result exactly when safes minus moves_made
    is empty, and otherwise returns an element of that set. -/
theorem c9_safe_move_spec (st : AIState) :
    ((st.make_safe_move).2 = none ↔ st.safes \ st.moves_made = ∅) ∧
    (∀ c : Cell, (st.make_safe_move).2 = some c → c ∈ st.safes \ st.moves_made) := by
  rcases hl : sortedCells (st.safes \ st.moves_made) with _ | ⟨a, t⟩
  · have hempty : st.safes \ st.moves_made = ∅ := by
      refine Finset.eq_empty_iff_forall_not_mem.mpr ?_
      intro x hx
      have hx2 : x ∈ sortedCells (st.safes \ st.moves_made) := mem_sortedCells.mpr hx
      rw [hl] at hx2
      exact absurd hx2 (List.not_mem_nil x)
    have hnone : (st.make_safe_move).2 = none := by
      show (sortedCells (st.safes \ st.moves_made)).head? = none
      rw [hl]
      rfl
    refine ⟨⟨fun _ => hempty, fun _ => hnone⟩, ?_⟩
    intro c hc
    rw [hnone] at hc
    exact absurd hc (by simp)
  · have ha : a ∈ st.safes \ st.moves_made := by
      refine mem_sortedCells.mp ?_
      rw [hl]
      exact List.mem_cons_self a t
    have hsome : (st.make_safe_move).2 = some a := by
      show (sortedCells (st.safes \ st.moves_made)).head? = some a
      rw [hl]
      rfl
    refine ⟨⟨?_, ?_⟩, ?_⟩
    · intro hh
      rw [hsome] at hh
      exact absurd hh (by simp)
    · intro hh
      rw [hh] at ha
      exact absurd ha (Finset.not_mem_empty a)
    · intro c hc
      rw [hsome] at hc
      have hac : a = c := Option.some.inj hc
      rw [← hac]
      exact ha

/-- Witness for c9: a state with a nonempty but fully played safes set gives
    no result, and a state with one unplayed safe cell returns that cell. -/
theorem c9_safe_move_spec_witness :
    ((stW9a.make_safe_move).2 = none ↔ stW9a.safes \ stW9a.moves_made = ∅) ∧
      ((0, 0) : Cell) ∈ stW9b.safes \ stW9b.moves_made :=
  ⟨(c9_safe_move_spec stW9a).1, (c9_safe_move_spec stW9b).2 (0, 0) (by decide)⟩

/-- C10: make_safe_move and make_random_move are pure queries: the state
    components mines, safes, moves_made and knowledge are unchanged. -/
theorem c10_move_queries_pure (st : AIState) (k : ℕ) :
    (st.make_safe_move).1.mines = st.mines ∧ (st.make_safe_move).1.safes = st.safes ∧
    (st.make_safe_move).1.moves_made = st.moves_made ∧
    (st.make_safe_move).1.knowledge = st.knowledge ∧
    (st.make_random_move k).1.mines = st.mines ∧
    (st.make_random_move k).1.safes = st.safes ∧
    (st.make_random_move k).1.moves_made = st.moves_made ∧
    (st.make_random_move k).1.knowledge = st.knowledge :=
  ⟨rfl, rfl, rfl, rfl, rfl, rfl, rfl, rfl⟩

/-- C8: after a consistent observation recorded by add_knowledge on any
    reachable consistent state, the observed cell is in moves_made, in safes,
    and not in mines. -/
theorem c8_observation_post (M : Cell → Bool) (h w : ℤ) (st : AIState) (cell : Cell)
    (count : ℤ) (hr : Reachable M h w st) (hb : inB h w cell) (hMc : M cell = false)
    (hc : count = trueNearby M h w cell) :
    cell ∈ (st.add_knowledge cell count).moves_made ∧
      cell ∈ (st.add_knowledge cell count).safes ∧
      cell ∉ (st.add_knowledge cell count).mines := by
  obtain ⟨f1, f2⟩ := add_knowledge_frame st cell count
  refine ⟨?_, ?_, ?_⟩
  · rw [f1]
    exact Finset.mem_insert_self cell st.moves_made
  · exact f2 (Finset.mem_insert_self cell st.safes)
  · intro hmem
    have hI := InvKB_add_knowledge cell count (InvKB_of_reachable hr) hMc hc
    have hMt := (hI.hmines cell hmem).1
    rw [hMc] at hMt
    exact Bool.noConfusion hMt

/-- Witness for c8: the first observation on the 1 x 1 board. -/
theorem c8_observation_post_witness :
    ((0, 0) : Cell) ∈ stObs1.moves_made ∧ ((0, 0) : Cell) ∈ stObs1.safes ∧
      ((0, 0) : Cell) ∉ stObs1.mines :=
  c8_observation_post M0 1 1 (aiInit 1 1) (0, 0) 0 Reachable.init (by decide) rfl (by decide)
